import Mathlib

/-!
Verification of the Minesweeper knowledge-based agent in `minesweeper.py`.

The embedding below translates the `Sentence` and `MinesweeperAI` classes.
Board cells are pairs of naturals (the program only ever creates
non-negative coordinates), sentence counts are integers (Python `int`,
which may go negative under inconsistent observations), cell sets are
`Finset`s (Python `set`, value equality), and the knowledge base is a
`List` of sentences (Python `list`, insertion order significant).

Python's in-place mutation idioms are modelled explicitly:
* `MinesweeperAI.mark_mine` / `mark_safe` map over every sentence;
* `knowledge_cleanup`'s second phase iterates the list by index while
  removing elements (`list.remove` deletes the first equal element), so
  the iterator skips the element following a removal, exactly as CPython
  does; the loop is written with explicit fuel (one unit per visited
  index, `length` units always suffice because the index grows by one
  per step and the list never grows);
* `blanket_set_subtraction` fixes the pair ranges before appending, so
  pairs are drawn from the sentences present at entry while the
  duplicate check scans the current, growing list.

`Sentence(set(), None)` (the sentinel returned by
`find_uncertain_neighbours` when the residual is forced) is modelled as
`Option.none`; `add_knowledge`'s `count != None` test is the `some`
match.  `make_random_move`'s unbounded retry loop is modelled by the
list of successive random draws it consumes; exhausting the list means
the Python loop has not returned yet.
-/

abbrev Cell : Type := ℕ × ℕ

/-- A linear enumeration order on cells (row-major), used to fold over
Python `set`s deterministically; every fold below is order-insensitive
in its final effect. -/
def cellLE (a b : Cell) : Prop :=
  a.1 < b.1 ∨ (a.1 = b.1 ∧ a.2 ≤ b.2)

instance : DecidableRel cellLE := fun a b => by
  unfold cellLE
  infer_instance

instance : IsTrans Cell cellLE :=
  ⟨by intro a b c hab hbc; unfold cellLE at *; omega⟩

instance : IsAntisymm Cell cellLE :=
  ⟨by
    intro a b hab hba
    unfold cellLE at *
    have h1 : a.1 = b.1 := by omega
    have h2 : a.2 = b.2 := by omega
    exact Prod.ext h1 h2⟩

instance : IsTotal Cell cellLE :=
  ⟨by intro a b; unfold cellLE; omega⟩

/-- Enumerate a finite cell set as a row-major sorted list.  Defined via
insertion sort, which is structurally recursive and therefore reduces
inside the kernel (merge sort does not). -/
def cellList (F : Finset Cell) : List Cell :=
  Quot.liftOn F.val (List.insertionSort cellLE) fun l₁ l₂ h =>
    List.eq_of_perm_of_sorted
      ((List.perm_insertionSort cellLE l₁).trans
        (h.trans (List.perm_insertionSort cellLE l₂).symm))
      (List.sorted_insertionSort cellLE l₁)
      (List.sorted_insertionSort cellLE l₂)

/-- A logical statement: exactly `count` of the cells in `cells` are mines
(from `class Sentence`; Python `__eq__` compares both fields). -/
structure Sentence where
  cells : Finset Cell
  count : ℤ
deriving DecidableEq

namespace Sentence

/-- From `Sentence.known_mines`. -/
def known_mines (s : Sentence) : Finset Cell :=
  if (s.cells.card : ℤ) = s.count then s.cells else ∅

/-- From `Sentence.known_safes`. -/
def known_safes (s : Sentence) : Finset Cell :=
  if s.count = 0 then s.cells else ∅

/-- From `Sentence.mark_mine`: remove the cell and decrement the count
when the cell is present (the Python loop with `break` is a membership
test). -/
def mark_mine (s : Sentence) (c : Cell) : Sentence :=
  if c ∈ s.cells then ⟨s.cells.erase c, s.count - 1⟩ else s

/-- From `Sentence.mark_safe`: remove the cell, count unchanged. -/
def mark_safe (s : Sentence) (c : Cell) : Sentence :=
  if c ∈ s.cells then ⟨s.cells.erase c, s.count⟩ else s

end Sentence

/-- The mutable state of `class MinesweeperAI`. -/
structure AIState where
  height : ℕ
  width : ℕ
  moves_made : Finset Cell
  mines : Finset Cell
  safes : Finset Cell
  knowledge : List Sentence
deriving DecidableEq

/-- From `MinesweeperAI.__init__` (sets empty, knowledge empty). -/
def initAI (h w : ℕ) : AIState :=
  ⟨h, w, ∅, ∅, ∅, []⟩

namespace AIState

/-- From `MinesweeperAI.mark_mine`: add to `mines` and propagate into
every sentence. -/
def mark_mine (s : AIState) (c : Cell) : AIState :=
  { s with mines := insert c s.mines,
           knowledge := s.knowledge.map (fun t => t.mark_mine c) }

/-- From `MinesweeperAI.mark_safe`: add to `safes` and propagate into
every sentence. -/
def mark_safe (s : AIState) (c : Cell) : AIState :=
  { s with safes := insert c s.safes,
           knowledge := s.knowledge.map (fun t => t.mark_safe c) }

/-- Mark every cell of the list as a mine, in order (the `for neighbour
in cellNeighbours: self.mark_mine(neighbour)` loops). -/
def markMinesList (s : AIState) (l : List Cell) : AIState :=
  l.foldl AIState.mark_mine s

/-- Mark every cell of the list safe, in order. -/
def markSafesList (s : AIState) (l : List Cell) : AIState :=
  l.foldl AIState.mark_safe s

/-- The eight guarded neighbour insertions at the top of
`find_uncertain_neighbours`.  Python compares against `self.width-1` /
`self.height-1`; for the natural-number coordinates the program uses,
truncated subtraction agrees with Python's arithmetic (for `width = 0`
both sides make the guard false). -/
def neighbourSet (s : AIState) (cell : Cell) : Finset Cell :=
  let n0 : Finset Cell := ∅
  let n1 := if 0 < cell.1 ∧ 0 < cell.2 then insert (cell.1 - 1, cell.2 - 1) n0 else n0
  let n2 := if 0 < cell.1 then insert (cell.1 - 1, cell.2) n1 else n1
  let n3 := if 0 < cell.1 ∧ cell.2 < s.width - 1 then insert (cell.1 - 1, cell.2 + 1) n2 else n2
  let n4 := if 0 < cell.2 then insert (cell.1, cell.2 - 1) n3 else n3
  let n5 := if cell.2 < s.width - 1 then insert (cell.1, cell.2 + 1) n4 else n4
  let n6 := if cell.1 < s.height - 1 ∧ 0 < cell.2 then insert (cell.1 + 1, cell.2 - 1) n5 else n5
  let n7 := if cell.1 < s.height - 1 then insert (cell.1 + 1, cell.2) n6 else n6
  let n8 := if cell.1 < s.height - 1 ∧ cell.2 < s.width - 1 then insert (cell.1 + 1, cell.2 + 1) n7 else n7
  n8

/-- From `MinesweeperAI.find_uncertain_neighbours`.  The pruning loop
removes known mines (decrementing `count` once per mine neighbour) and
known safes; the residual set keeps cells in neither.  (When a neighbour
is in both `mines` and `safes` the Python loop would raise `KeyError`
on the second `remove`; no state arising in the theorems below has a
cell in both sets next to an observation.)  The `count == 0` branch is
tested before the `count == len(cellNeighbours)` branch, and both mark
their conclusions immediately and return the `None`-count sentinel,
modelled as `Option.none`. -/
def find_uncertain_neighbours (s : AIState) (cell : Cell) (count : ℤ) :
    AIState × Option Sentence :=
  let ns := neighbourSet s cell
  let newCount := count - ((ns.filter (fun c => c ∈ s.mines)).card : ℤ)
  let remaining := ns.filter (fun c => c ∉ s.mines ∧ c ∉ s.safes)
  if newCount = 0 then
    (markSafesList s (cellList remaining), none)
  else if newCount = (remaining.card : ℤ) then
    (markMinesList s (cellList remaining), none)
  else
    (s, some ⟨remaining, newCount⟩)

/-- The index pairs `(i, j)` with `i < j`, yielding the element pairs in
the order Python's nested `range` loops visit them. -/
def orderedPairs {α : Type} : List α → List (α × α)
  | [] => []
  | x :: xs => (xs.map (fun y => (x, y))) ++ orderedPairs xs

/-- The `badList` accumulation of `knowledge_cleanup`: one copy of each
sentence that shares a cell set with a later sentence, guarded by a
full-equality membership test against the list built so far. -/
def buildBadList (K : List Sentence) : List Sentence :=
  (orderedPairs K).foldl
    (fun bad p => if p.1.cells = p.2.cells ∧ p.1 ∉ bad then bad ++ [p.1] else bad) []

/-- Phase one of `knowledge_cleanup`: `goodList + badList`. -/
def dedupSentences (K : List Sentence) : List Sentence :=
  K.filter (fun t => decide (t ∉ buildBadList K)) ++ buildBadList K

/-- Python `list.remove`: delete the first element equal to the
argument. -/
def removeFirst : List Sentence → Sentence → List Sentence
  | [], _ => []
  | x :: xs, a => if x = a then xs else x :: removeFirst xs a

/-- Remove the first element equal to the (now fully pruned) sentence at
position `idx` — Python's `self.knowledge.remove(sentence)` after the
`mark_*` calls have mutated `sentence` in place. -/
def harvestRemove (s' : AIState) (idx : ℕ) : AIState :=
  { s' with knowledge := removeFirst s'.knowledge (s'.knowledge.getD idx ⟨∅, 0⟩) }

/-- Phase two of `knowledge_cleanup`: the `for sentence in
self.knowledge` loop that harvests degenerate sentences.  Removing the
current element shifts the remainder left while the iterator still
advances, so the element after a removal is skipped; this is captured by
always recursing at `idx + 1` on the mutated list.  The harvested
sentence is mutated to `(∅, 0)` by its own `mark_*` propagation before
`remove` runs, so `remove` deletes the first `(∅, 0)`-equal element. -/
def harvestFuel : ℕ → AIState → ℕ → AIState
  | 0, s, _ => s
  | fuel + 1, s, idx =>
    if idx < s.knowledge.length then
      if (s.knowledge.getD idx ⟨∅, 0⟩).count = (((s.knowledge.getD idx ⟨∅, 0⟩).cells.card : ℕ) : ℤ) then
        harvestFuel fuel
          (harvestRemove (markMinesList s (cellList (s.knowledge.getD idx ⟨∅, 0⟩).cells)) idx) (idx + 1)
      else if (s.knowledge.getD idx ⟨∅, 0⟩).count = 0 then
        harvestFuel fuel
          (harvestRemove (markSafesList s (cellList (s.knowledge.getD idx ⟨∅, 0⟩).cells)) idx) (idx + 1)
      else
        harvestFuel fuel s (idx + 1)
    else s

/-- From `MinesweeperAI.knowledge_cleanup`: deduplicate by cell set,
then harvest degenerate sentences.  The index loop visits at most
`length` positions, so `length` fuel never runs out early. -/
def knowledge_cleanup (s : AIState) : AIState :=
  let s1 := { s with knowledge := dedupSentences s.knowledge }
  harvestFuel s1.knowledge.length s1 0

/-- The list-level body of `MinesweeperAI.blanket_set_subtraction`:
pairs are fixed from the sentences present at entry (`originalLength`),
the duplicate check scans the current list, and the second subset
direction is an `elif`. -/
def blanketList (K : List Sentence) : List Sentence :=
  (orderedPairs K).foldl
    (fun acc p =>
      if p.1.cells ⊆ p.2.cells then
        (if acc.any (fun t => decide (t.cells = p.2.cells \ p.1.cells)) then acc
         else acc ++ [⟨p.2.cells \ p.1.cells, p.2.count - p.1.count⟩])
      else if p.2.cells ⊆ p.1.cells then
        (if acc.any (fun t => decide (t.cells = p.1.cells \ p.2.cells)) then acc
         else acc ++ [⟨p.1.cells \ p.2.cells, p.1.count - p.2.count⟩])
      else acc)
    K

/-- From `MinesweeperAI.blanket_set_subtraction` (touches only
`self.knowledge`). -/
def blanket_set_subtraction (s : AIState) : AIState :=
  { s with knowledge := blanketList s.knowledge }

/-- The tail of `add_knowledge` after the new sentence is appended: the
cleanup / subset-resolution / cleanup sequence ("closure"). -/
def closureStep (s : AIState) : AIState :=
  knowledge_cleanup (blanket_set_subtraction (knowledge_cleanup s))

/-- Append the derived neighbour sentence unless it is the `None`-count
sentinel (`if uncertainNeighbours.count != None`). -/
def appendSentence (s : AIState) (o : Option Sentence) : AIState :=
  match o with
  | some t => { s with knowledge := s.knowledge ++ [t] }
  | none => s

/-- From `MinesweeperAI.add_knowledge` (`record_observation`): record
the move, mark the cell safe, derive the neighbour sentence, append it
when its count is not the `None` sentinel, then run the closure
sequence. -/
def add_knowledge (s : AIState) (cell : Cell) (count : ℤ) : AIState :=
  let s2 := ({ s with moves_made := insert cell s.moves_made }).mark_safe cell
  let fr := find_uncertain_neighbours s2 cell count
  closureStep (appendSentence fr.1 fr.2)

/-- From `MinesweeperAI.make_safe_move`: return some element of
`safes - moves_made`, or `none` when that difference is empty (the
Python `for ... return` falls through to an implicit `None`). -/
def make_safe_move (s : AIState) : Option Cell :=
  (cellList (s.safes \ s.moves_made)).head?

/-- The acceptance test of `make_random_move`'s retry loop. -/
def randomMoveOk (s : AIState) (c : Cell) : Bool :=
  decide (c ∉ s.moves_made ∧ c ∉ s.mines)

/-- From `MinesweeperAI.make_random_move`: the `while True` loop draws
`(randrange(height), randrange(width))` until a draw passes the test.
`randoms` is the sequence of draws consumed; the function returns the
first accepted draw.  `none` means the loop is still running after all
the listed draws — the Python code has no other way to stop. -/
def make_random_move (s : AIState) (randoms : List Cell) : Option Cell :=
  randoms.find? (randomMoveOk s)

/-- Run a sequence of `record_observation` calls in order. -/
def runObs (s : AIState) (obs : List (Cell × ℤ)) : AIState :=
  obs.foldl (fun st o => add_knowledge st o.1 o.2) s

/-- A call sequence is valid when no observation is of a cell already
known to be a mine at its call time (a real game never reveals a count
for a mine cell). -/
def ValidTrace (s : AIState) : List (Cell × ℤ) → Prop
  | [] => True
  | o :: rest => o.1 ∉ s.mines ∧ ValidTrace (add_knowledge s o.1 o.2) rest

def decValidTrace : (s : AIState) → (obs : List (Cell × ℤ)) → Decidable (ValidTrace s obs)
  | _, [] => Decidable.isTrue trivial
  | s, o :: rest =>
    @instDecidableAnd _ _ _ (decValidTrace (add_knowledge s o.1 o.2) rest)

instance (s : AIState) (obs : List (Cell × ℤ)) : Decidable (ValidTrace s obs) :=
  decValidTrace s obs

/-- Every cell mentioned by the sentence is still undetermined with
respect to the given mine and safe sets. -/
def SentOk (M S : Finset Cell) (t : Sentence) : Prop :=
  ∀ c ∈ t.cells, c ∉ M ∧ c ∉ S

/-- The stability invariant of the knowledge base: live sentences
mention only undetermined cells, and no cell is both a known mine and a
known safe. -/
def Inv (s : AIState) : Prop :=
  (∀ t ∈ s.knowledge, SentOk s.mines s.safes t) ∧ s.mines ∩ s.safes = ∅

/-- Modelled from the spec's wording of subset resolution: for every
pair of sentences present when resolution starts, both subset
directions are checked, and the difference sentence
`(B.cells minus A.cells, B.count - A.count)` is appended exactly when no
sentence with that cell set already exists in the current list. -/
def subsetResolutionSpec (K : List Sentence) : List Sentence :=
  (orderedPairs K).foldl
    (fun acc p =>
      let acc1 :=
        if p.1.cells ⊆ p.2.cells ∧ ∀ t ∈ acc, t.cells ≠ p.2.cells \ p.1.cells then
          acc ++ [⟨p.2.cells \ p.1.cells, p.2.count - p.1.count⟩]
        else acc
      if p.2.cells ⊆ p.1.cells ∧ ∀ t ∈ acc1, t.cells ≠ p.1.cells \ p.2.cells then
        acc1 ++ [⟨p.1.cells \ p.2.cells, p.1.count - p.2.count⟩]
      else acc1)
    K

/-- Chebyshev adjacency: the two cells differ by at most one in each
coordinate and are not equal (the 8-neighbour relation). -/
def adjacentCells (a b : Cell) : Prop :=
  a.1 ≤ b.1 + 1 ∧ b.1 ≤ a.1 + 1 ∧ a.2 ≤ b.2 + 1 ∧ b.2 ≤ a.2 + 1 ∧ a ≠ b

/-- Scenario A: 1×1 board, `record_observation((0,0), 0)` from a fresh
agent. -/
def scenarioA : AIState :=
  add_knowledge (initAI 1 1) (0, 0) 0

/-- Scenarios B and C: 2×2 board, `record_observation((0,0), 1)` then
`record_observation((1,0), 1)` from a fresh agent. -/
def scenarioC : AIState :=
  add_knowledge (add_knowledge (initAI 2 2) (0, 0) 1) (1, 0) 1

/-- A knowledge base on which subset resolution appends two degenerate
singletons in a row, so the single post-resolution cleanup pass harvests
the first and skips the second. -/
def kbTriple (h w : ℕ) : AIState :=
  ⟨h, w, ∅, ∅, ∅,
    [⟨{(0, 0), (0, 1)}, 1⟩,
     ⟨{(0, 0), (0, 1), (0, 2)}, 2⟩,
     ⟨{(0, 0), (0, 1), (0, 3)}, 2⟩]⟩

/-- A 1×2 game: observing `(0,0)` with count 1 infers the mine `(0,1)`;
then observing `(0,1)` itself (count 0) marks that same cell safe. -/
def overlapTrace : AIState :=
  add_knowledge (add_knowledge (initAI 1 2) (0, 0) 1) (0, 1) 0

/-- A fully played 1×1 board: no cell is outside `moves_made ∪ mines`. -/
def stuckAI : AIState :=
  ⟨1, 1, {(0, 0)}, ∅, ∅, []⟩

/-- An out-of-bounds observation on a 1×1 board. -/
def oobState : AIState :=
  add_knowledge (initAI 1 1) (3, 3) 0

/-- A one-sentence knowledge base that `knowledge_cleanup` leaves
unchanged. -/
def fixpointKB : AIState :=
  ⟨2, 2, ∅, ∅, ∅, [⟨{(0, 0), (0, 1)}, 1⟩]⟩

end AIState

namespace AIState

/-! ### Field-preservation and monotonicity lemmas -/

lemma markMinesList_nil (s : AIState) : markMinesList s [] = s := rfl

lemma markMinesList_cons (s : AIState) (c : Cell) (l : List Cell) :
    markMinesList s (c :: l) = markMinesList (s.mark_mine c) l := rfl

lemma markSafesList_nil (s : AIState) : markSafesList s [] = s := rfl

lemma markSafesList_cons (s : AIState) (c : Cell) (l : List Cell) :
    markSafesList s (c :: l) = markSafesList (s.mark_safe c) l := rfl

lemma markMinesList_moves (l : List Cell) (s : AIState) :
    (markMinesList s l).moves_made = s.moves_made := by
  induction l generalizing s with
  | nil => rfl
  | cons c l ih => simpa [markMinesList_cons] using ih (s.mark_mine c)

lemma markSafesList_moves (l : List Cell) (s : AIState) :
    (markSafesList s l).moves_made = s.moves_made := by
  induction l generalizing s with
  | nil => rfl
  | cons c l ih => simpa [markSafesList_cons] using ih (s.mark_safe c)

lemma markMinesList_safes (l : List Cell) (s : AIState) :
    (markMinesList s l).safes = s.safes := by
  induction l generalizing s with
  | nil => rfl
  | cons c l ih => simpa [markMinesList_cons] using ih (s.mark_mine c)

lemma markSafesList_mines (l : List Cell) (s : AIState) :
    (markSafesList s l).mines = s.mines := by
  induction l generalizing s with
  | nil => rfl
  | cons c l ih => simpa [markSafesList_cons] using ih (s.mark_safe c)

lemma markMinesList_mines_mono (l : List Cell) (s : AIState) :
    s.mines ⊆ (markMinesList s l).mines := by
  induction l generalizing s with
  | nil => exact subset_rfl
  | cons c l ih =>
    rw [markMinesList_cons]
    exact Finset.Subset.trans (Finset.subset_insert c s.mines) (ih (s.mark_mine c))

lemma markSafesList_safes_mono (l : List Cell) (s : AIState) :
    s.safes ⊆ (markSafesList s l).safes := by
  induction l generalizing s with
  | nil => exact subset_rfl
  | cons c l ih =>
    rw [markSafesList_cons]
    exact Finset.Subset.trans (Finset.subset_insert c s.safes) (ih (s.mark_safe c))

lemma markMinesList_height (l : List Cell) (s : AIState) :
    (markMinesList s l).height = s.height := by
  induction l generalizing s with
  | nil => rfl
  | cons c l ih => rw [markMinesList_cons]; exact ih (s.mark_mine c)

lemma markSafesList_height (l : List Cell) (s : AIState) :
    (markSafesList s l).height = s.height := by
  induction l generalizing s with
  | nil => rfl
  | cons c l ih => rw [markSafesList_cons]; exact ih (s.mark_safe c)

lemma find_uncertain_fst_moves (s : AIState) (cell : Cell) (count : ℤ) :
    (find_uncertain_neighbours s cell count).1.moves_made = s.moves_made := by
  simp only [find_uncertain_neighbours]
  split_ifs <;> simp [markSafesList_moves, markMinesList_moves]

lemma find_uncertain_fst_mines_mono (s : AIState) (cell : Cell) (count : ℤ) :
    s.mines ⊆ (find_uncertain_neighbours s cell count).1.mines := by
  simp only [find_uncertain_neighbours]
  split_ifs
  · rw [markSafesList_mines]
  · exact markMinesList_mines_mono _ _
  · exact subset_rfl

lemma find_uncertain_fst_safes_mono (s : AIState) (cell : Cell) (count : ℤ) :
    s.safes ⊆ (find_uncertain_neighbours s cell count).1.safes := by
  simp only [find_uncertain_neighbours]
  split_ifs
  · exact markSafesList_safes_mono _ _
  · rw [markMinesList_safes]
  · exact subset_rfl

lemma harvestRemove_moves (s : AIState) (idx : ℕ) :
    (harvestRemove s idx).moves_made = s.moves_made := rfl

lemma harvestRemove_mines (s : AIState) (idx : ℕ) :
    (harvestRemove s idx).mines = s.mines := rfl

lemma harvestRemove_safes (s : AIState) (idx : ℕ) :
    (harvestRemove s idx).safes = s.safes := rfl

lemma harvestFuel_moves (fuel : ℕ) (s : AIState) (idx : ℕ) :
    (harvestFuel fuel s idx).moves_made = s.moves_made := by
  induction fuel generalizing s idx with
  | zero => rfl
  | succ fuel ih =>
    rw [harvestFuel]
    split_ifs <;>
      simp [ih, harvestRemove_moves, markMinesList_moves, markSafesList_moves]

lemma harvestFuel_mines_mono (fuel : ℕ) (s : AIState) (idx : ℕ) :
    s.mines ⊆ (harvestFuel fuel s idx).mines := by
  induction fuel generalizing s idx with
  | zero => exact subset_rfl
  | succ fuel ih =>
    rw [harvestFuel]
    split_ifs
    · exact Finset.Subset.trans
        (markMinesList_mines_mono (cellList (s.knowledge.getD idx ⟨∅, 0⟩).cells) s)
        (ih (harvestRemove (markMinesList s (cellList (s.knowledge.getD idx ⟨∅, 0⟩).cells)) idx) (idx + 1))
    · refine Finset.Subset.trans ?_ (ih _ _)
      rw [harvestRemove_mines, markSafesList_mines]
    · exact ih _ _
    · exact subset_rfl

lemma harvestFuel_safes_mono (fuel : ℕ) (s : AIState) (idx : ℕ) :
    s.safes ⊆ (harvestFuel fuel s idx).safes := by
  induction fuel generalizing s idx with
  | zero => exact subset_rfl
  | succ fuel ih =>
    rw [harvestFuel]
    split_ifs
    · refine Finset.Subset.trans ?_ (ih _ _)
      rw [harvestRemove_safes, markMinesList_safes]
    · exact Finset.Subset.trans
        (markSafesList_safes_mono (cellList (s.knowledge.getD idx ⟨∅, 0⟩).cells) s)
        (ih (harvestRemove (markSafesList s (cellList (s.knowledge.getD idx ⟨∅, 0⟩).cells)) idx) (idx + 1))
    · exact ih _ _
    · exact subset_rfl

lemma knowledge_cleanup_moves (s : AIState) :
    (knowledge_cleanup s).moves_made = s.moves_made := by
  simp only [knowledge_cleanup]
  rw [harvestFuel_moves]

lemma knowledge_cleanup_mines_mono (s : AIState) :
    s.mines ⊆ (knowledge_cleanup s).mines := by
  simp only [knowledge_cleanup]
  exact harvestFuel_mines_mono (dedupSentences s.knowledge).length
    { s with knowledge := dedupSentences s.knowledge } 0

lemma knowledge_cleanup_safes_mono (s : AIState) :
    s.safes ⊆ (knowledge_cleanup s).safes := by
  simp only [knowledge_cleanup]
  exact harvestFuel_safes_mono (dedupSentences s.knowledge).length
    { s with knowledge := dedupSentences s.knowledge } 0

lemma blanket_moves (s : AIState) :
    (blanket_set_subtraction s).moves_made = s.moves_made := rfl

lemma blanket_mines (s : AIState) :
    (blanket_set_subtraction s).mines = s.mines := rfl

lemma blanket_safes (s : AIState) :
    (blanket_set_subtraction s).safes = s.safes := rfl

lemma closureStep_moves (s : AIState) :
    (closureStep s).moves_made = s.moves_made := by
  unfold closureStep
  rw [knowledge_cleanup_moves, blanket_moves, knowledge_cleanup_moves]

lemma closureStep_mines_mono (s : AIState) :
    s.mines ⊆ (closureStep s).mines := by
  unfold closureStep
  refine Finset.Subset.trans (knowledge_cleanup_mines_mono s) ?_
  rw [← blanket_mines (knowledge_cleanup s)]
  exact knowledge_cleanup_mines_mono _

lemma closureStep_safes_mono (s : AIState) :
    s.safes ⊆ (closureStep s).safes := by
  unfold closureStep
  refine Finset.Subset.trans (knowledge_cleanup_safes_mono s) ?_
  rw [← blanket_safes (knowledge_cleanup s)]
  exact knowledge_cleanup_safes_mono _

lemma appendSentence_moves (s : AIState) (o : Option Sentence) :
    (appendSentence s o).moves_made = s.moves_made := by
  cases o <;> rfl

lemma appendSentence_mines (s : AIState) (o : Option Sentence) :
    (appendSentence s o).mines = s.mines := by
  cases o <;> rfl

lemma appendSentence_safes (s : AIState) (o : Option Sentence) :
    (appendSentence s o).safes = s.safes := by
  cases o <;> rfl

lemma post_mark_moves (X : AIState) (cell : Cell) (count : ℤ) :
    (closureStep (appendSentence (find_uncertain_neighbours X cell count).1
      (find_uncertain_neighbours X cell count).2)).moves_made = X.moves_made := by
  rw [closureStep_moves, appendSentence_moves, find_uncertain_fst_moves]

lemma post_mark_mines_mono (X : AIState) (cell : Cell) (count : ℤ) :
    X.mines ⊆ (closureStep (appendSentence (find_uncertain_neighbours X cell count).1
      (find_uncertain_neighbours X cell count).2)).mines := by
  refine Finset.Subset.trans ?_ (closureStep_mines_mono _)
  rw [appendSentence_mines]
  exact find_uncertain_fst_mines_mono X cell count

lemma post_mark_safes_mono (X : AIState) (cell : Cell) (count : ℤ) :
    X.safes ⊆ (closureStep (appendSentence (find_uncertain_neighbours X cell count).1
      (find_uncertain_neighbours X cell count).2)).safes := by
  refine Finset.Subset.trans ?_ (closureStep_safes_mono _)
  rw [appendSentence_safes]
  exact find_uncertain_fst_safes_mono X cell count

lemma add_knowledge_def (s : AIState) (cell : Cell) (count : ℤ) :
    add_knowledge s cell count =
      closureStep (appendSentence
        (find_uncertain_neighbours
          (mark_safe { s with moves_made := insert cell s.moves_made } cell) cell count).1
        (find_uncertain_neighbours
          (mark_safe { s with moves_made := insert cell s.moves_made } cell) cell count).2) := rfl

lemma add_knowledge_moves (s : AIState) (cell : Cell) (count : ℤ) :
    (add_knowledge s cell count).moves_made = insert cell s.moves_made := by
  rw [add_knowledge_def, post_mark_moves]
  rfl

lemma add_knowledge_mines_mono (s : AIState) (cell : Cell) (count : ℤ) :
    s.mines ⊆ (add_knowledge s cell count).mines := by
  rw [add_knowledge_def]
  exact post_mark_mines_mono
    (mark_safe { s with moves_made := insert cell s.moves_made } cell) cell count

lemma add_knowledge_safes_mono (s : AIState) (cell : Cell) (count : ℤ) :
    s.safes ⊆ (add_knowledge s cell count).safes := by
  rw [add_knowledge_def]
  refine Finset.Subset.trans ?_
    (post_mark_safes_mono
      (mark_safe { s with moves_made := insert cell s.moves_made } cell) cell count)
  exact Finset.subset_insert cell s.safes

lemma add_knowledge_cell_safe (s : AIState) (cell : Cell) (count : ℤ) :
    cell ∈ (add_knowledge s cell count).safes := by
  rw [add_knowledge_def]
  refine post_mark_safes_mono
    (mark_safe { s with moves_made := insert cell s.moves_made } cell) cell count ?_
  exact Finset.mem_insert_self cell s.safes

end AIState

open AIState in
/-- Claim C8: on a 1×1 board with a fresh agent, `record_observation((0,0), 0)`
results in `safes == {(0,0)}`, `mines == {}`, and an empty knowledge base
(the residual neighbour set is empty, so no sentence is appended). -/
theorem scenarioA_result :
    scenarioA.safes = {((0 : ℕ), (0 : ℕ))} ∧ scenarioA.mines = ∅ ∧
      scenarioA.knowledge = [] := by
  decide

open AIState in
/-- Claim C1 (counterexample): after `record_observation((0,0), 1)` followed by
`record_observation((1,0), 1)` on a 2×2 board, the knowledge base does not
satisfy `mines == {(0,1)}` together with `safes ⊇ {(0,0),(1,0),(1,1)}`. -/
theorem scenarioC_claim_false :
    ¬ (scenarioC.mines = {((0 : ℕ), (1 : ℕ))} ∧
       ({((0 : ℕ), (0 : ℕ)), (1, 0), (1, 1)} : Finset Cell) ⊆ scenarioC.safes) := by
  decide

open AIState in
/-- Claim C1 (amended): after the two observations the engine has concluded
nothing beyond the observed cells themselves: `mines == {}`,
`safes == {(0,0),(1,0)}`, and the knowledge base holds the single sentence
`{(0,1),(1,1)} = 1`.  Marking `(1,0)` safe pruned it from the first
sentence before resolution, the two sentences became equal and were
deduplicated, and one sentence admits no subset resolution. -/
theorem scenarioC_result :
    scenarioC.mines = ∅ ∧ scenarioC.safes = {((0 : ℕ), (0 : ℕ)), (1, 0)} ∧
      scenarioC.knowledge.map (fun t => (cellList t.cells, t.count)) =
        [([((0 : ℕ), (1 : ℕ)), (1, 1)], (1 : ℤ))] := by
  decide

open AIState in
/-- Claim C2 (counterexample): running the closure sequence a second time with
no new observation can change `mines` and the sentence list — on this state
the first run leaves a degenerate singleton that only the second run
harvests. -/
theorem closure_not_idempotent :
    closureStep (closureStep (kbTriple 1 4)) ≠ closureStep (kbTriple 1 4) := by
  decide

open AIState in
/-- Claim C2 (amended): a second closure run never loses knowledge — `mines`
and `safes` only grow when the cleanup, subset-resolution, cleanup sequence
runs again — but it is not the identity in general. -/
theorem closure_second_run_monotone (s : AIState) :
    (closureStep s).mines ⊆ (closureStep (closureStep s)).mines ∧
      (closureStep s).safes ⊆ (closureStep (closureStep s)).safes :=
  ⟨closureStep_mines_mono _, closureStep_safes_mono _⟩

open AIState in
/-- Claim C3 (counterexample): a `record_observation` call that returns with a
degenerate sentence still in the knowledge base: subset resolution appended
`{(0,2)} = 1` and `{(0,3)} = 1` next to each other, and the final cleanup
pass removed the first while its iterator skipped the second. -/
theorem degenerate_survives :
    (⟨{((0 : ℕ), (3 : ℕ))}, 1⟩ : Sentence) ∈
        (add_knowledge (kbTriple 10 10) (9, 9) 1).knowledge ∧
      (⟨{((0 : ℕ), (3 : ℕ))}, 1⟩ : Sentence).cells ≠ ∅ ∧
      (⟨{((0 : ℕ), (3 : ℕ))}, 1⟩ : Sentence).count =
        ((⟨{((0 : ℕ), (3 : ℕ))}, 1⟩ : Sentence).cells.card : ℤ) := by
  decide

open AIState in
/-- Claim C5 (counterexample): across the two-call sequence of `overlapTrace`
the sets `mines` and `safes` do not stay disjoint: the first call infers the
mine `(0,1)`, the second call observes `(0,1)` itself and unconditionally
marks it safe. -/
theorem mines_safes_overlap :
    ((0 : ℕ), (1 : ℕ)) ∈ overlapTrace.mines ∧
      ((0 : ℕ), (1 : ℕ)) ∈ overlapTrace.safes := by
  decide

open AIState in
/-- Claim C7 (counterexample): a `record_observation` call with a cell outside
board bounds is not rejected and does not leave the state unchanged: on a
1×1 board, observing `(3,3)` mutates `moves_made` (and more). -/
theorem out_of_bounds_not_rejected :
    oobState ≠ initAI 1 1 ∧ oobState.moves_made ≠ (initAI 1 1).moves_made := by
  decide

open AIState in
/-- Claim C7 (amended): `record_observation` performs no validation at all:
for every state, every cell — already played or out of bounds included —
and every count, the call goes through and records the cell in both
`moves_made` and `safes`. -/
theorem add_knowledge_no_validation (s : AIState) (cell : Cell) (count : ℤ) :
    cell ∈ (add_knowledge s cell count).moves_made ∧
      cell ∈ (add_knowledge s cell count).safes := by
  refine ⟨?_, add_knowledge_cell_safe s cell count⟩
  rw [add_knowledge_moves]
  exact Finset.mem_insert_self _ _

/-- Claim C9: `Sentence.mark_mine` removes exactly the marked cell — a cell
survives the call precisely when it was present and is not the marked one —
and decrements `count` by exactly one when the marked cell was present,
leaving `count` unchanged otherwise. -/
theorem sentence_mark_mine_spec (t : Sentence) (c : Cell) :
    (∀ x : Cell, x ∈ (t.mark_mine c).cells ↔ (x ∈ t.cells ∧ x ≠ c)) ∧
      (t.mark_mine c).count = (if c ∈ t.cells then t.count - 1 else t.count) := by
  constructor
  · intro x
    by_cases h : c ∈ t.cells
    · simp [Sentence.mark_mine, h, Finset.mem_erase, and_comm]
    · simp only [Sentence.mark_mine, h, if_false]
      constructor
      · intro hx
        exact ⟨hx, fun he => h (he ▸ hx)⟩
      · intro hx
        exact hx.1
  · by_cases h : c ∈ t.cells <;> simp [Sentence.mark_mine, h]

open AIState in
/-- Claim C6 (code behaviour at the failing input): on a fully played 1×1
board, every in-bounds random draw is rejected, so `make_random_move`
returns no cell no matter how many draws the retry loop consumes; since
the function's only `return` hands back an accepted cell, the Python loop
never terminates and in particular never returns `none`. -/
theorem make_random_move_never_returns (rs : List Cell)
    (h : ∀ x ∈ rs, x.1 < 1 ∧ x.2 < 1) :
    make_random_move stuckAI rs = none := by
  induction rs with
  | nil => rfl
  | cons c l ih =>
    have hc := h c (List.mem_cons_self c l)
    have hc0 : c = ((0 : ℕ), (0 : ℕ)) := by
      obtain ⟨a, b⟩ := c
      obtain ⟨ha, hb⟩ := hc
      simp only at ha hb
      have ha0 : a = 0 := by omega
      have hb0 : b = 0 := by omega
      rw [ha0, hb0]
    subst hc0
    have hrej : randomMoveOk stuckAI (0, 0) = false := by decide
    rw [make_random_move, List.find?]
    rw [hrej]
    exact ih fun x hx => h x (List.mem_cons_of_mem _ hx)

open AIState in
/-- Witness for `make_random_move_never_returns` at the one-draw list
`[(0,0)]`. -/
theorem make_random_move_never_returns_witness :
    (∀ x ∈ [((0 : ℕ), (0 : ℕ))], x.1 < 1 ∧ x.2 < 1) ∧
      make_random_move stuckAI [((0 : ℕ), (0 : ℕ))] = none :=
  ⟨by decide, make_random_move_never_returns [((0 : ℕ), (0 : ℕ))] (by decide)⟩

namespace AIState

lemma mem_condInsert {P : Prop} [Decidable P] {v c : Cell} {acc : Finset Cell}
    (h : c ∈ (if P then insert v acc else acc)) : (P ∧ c = v) ∨ c ∈ acc := by
  split_ifs at h with hP
  · rcases Finset.mem_insert.mp h with h | h
    · exact Or.inl ⟨hP, h⟩
    · exact Or.inr h
  · exact Or.inr h

lemma neighbour_case (cell : Cell) (a b : ℕ) (hne : a ≠ cell.1 ∨ b ≠ cell.2)
    (h1 : a ≤ cell.1 + 1) (h2 : cell.1 ≤ a + 1)
    (h3 : b ≤ cell.2 + 1) (h4 : cell.2 ≤ b + 1) : adjacentCells (a, b) cell := by
  refine ⟨h1, h2, h3, h4, fun he => ?_⟩
  have ha := congrArg Prod.fst he
  have hb := congrArg Prod.snd he
  simp only at ha hb
  rcases hne with hne | hne
  · exact hne ha
  · exact hne hb

lemma mem_neighbourSet_sound (s : AIState) (cell c : Cell)
    (hr : cell.1 < s.height) (hw : cell.2 < s.width)
    (hc : c ∈ neighbourSet s cell) :
    adjacentCells c cell ∧ c.1 < s.height ∧ c.2 < s.width := by
  simp only [neighbourSet] at hc
  rcases mem_condInsert hc with ⟨hg, rfl⟩ | hc
  · exact ⟨neighbour_case _ _ _ (Or.inl (by omega)) (by omega) (by omega) (by omega) (by omega),
      by simp only; omega, by simp only; omega⟩
  rcases mem_condInsert hc with ⟨hg, rfl⟩ | hc
  · exact ⟨neighbour_case _ _ _ (Or.inl (by omega)) (by omega) (by omega) (by omega) (by omega),
      by simp only; omega, by simp only; omega⟩
  rcases mem_condInsert hc with ⟨hg, rfl⟩ | hc
  · exact ⟨neighbour_case _ _ _ (Or.inl (by omega)) (by omega) (by omega) (by omega) (by omega),
      by simp only; omega, by simp only; omega⟩
  rcases mem_condInsert hc with ⟨hg, rfl⟩ | hc
  · exact ⟨neighbour_case _ _ _ (Or.inr (by omega)) (by omega) (by omega) (by omega) (by omega),
      by simp only; omega, by simp only; omega⟩
  rcases mem_condInsert hc with ⟨hg, rfl⟩ | hc
  · exact ⟨neighbour_case _ _ _ (Or.inr (by omega)) (by omega) (by omega) (by omega) (by omega),
      by simp only; omega, by simp only; omega⟩
  rcases mem_condInsert hc with ⟨hg, rfl⟩ | hc
  · exact ⟨neighbour_case _ _ _ (Or.inl (by omega)) (by omega) (by omega) (by omega) (by omega),
      by simp only; omega, by simp only; omega⟩
  rcases mem_condInsert hc with ⟨hg, rfl⟩ | hc
  · exact ⟨neighbour_case _ _ _ (Or.inl (by omega)) (by omega) (by omega) (by omega) (by omega),
      by simp only; omega, by simp only; omega⟩
  rcases mem_condInsert hc with ⟨hg, rfl⟩ | hc
  · exact ⟨neighbour_case _ _ _ (Or.inl (by omega)) (by omega) (by omega) (by omega) (by omega),
      by simp only; omega, by simp only; omega⟩
  exact absurd hc (Finset.not_mem_empty c)

end AIState

open AIState in
/-- Claim C10: for every in-bounds observed cell and every count, each cell
in the cell set of the sentence returned by `find_uncertain_neighbours` is
an 8-neighbour of the observed cell, lies within board bounds, differs from
the observed cell, and was in neither `mines` nor `safes` at call time. -/
theorem find_uncertain_neighbours_sound (s : AIState) (cell : Cell) (count : ℤ)
    (hr : cell.1 < s.height) (hw : cell.2 < s.width) :
    ∀ t ∈ (find_uncertain_neighbours s cell count).2, ∀ c ∈ t.cells,
      adjacentCells c cell ∧ c.1 < s.height ∧ c.2 < s.width ∧
        c ∉ s.mines ∧ c ∉ s.safes := by
  intro t ht c hc
  rw [Option.mem_def] at ht
  simp only [find_uncertain_neighbours] at ht
  split_ifs at ht
  have ht2 : (⟨(neighbourSet s cell).filter (fun c => c ∉ s.mines ∧ c ∉ s.safes),
      count - (((neighbourSet s cell).filter (fun c => c ∈ s.mines)).card : ℤ)⟩ : Sentence) =
      t := Option.some.inj ht
  rw [← ht2] at hc
  have hc' := Finset.mem_filter.mp hc
  have hadj := mem_neighbourSet_sound s cell c hr hw hc'.1
  exact ⟨hadj.1, hadj.2.1, hadj.2.2, hc'.2.1, hc'.2.2⟩

open AIState in
/-- Witness for `find_uncertain_neighbours_sound`: a 3×3 board, observed cell
`(1,1)` with count 1, fresh agent. -/
theorem find_uncertain_neighbours_sound_witness :
    ((1 : ℕ) < (initAI 3 3).height ∧ (1 : ℕ) < (initAI 3 3).width) ∧
      (∀ t ∈ (find_uncertain_neighbours (initAI 3 3) (1, 1) 1).2, ∀ c ∈ t.cells,
        adjacentCells c (1, 1) ∧ c.1 < (initAI 3 3).height ∧ c.2 < (initAI 3 3).width ∧
          c ∉ (initAI 3 3).mines ∧ c ∉ (initAI 3 3).safes) :=
  ⟨by decide,
   find_uncertain_neighbours_sound (initAI 3 3) (1, 1) 1 (by decide) (by decide)⟩

lemma foldl_fun_congr {α β : Type} {f g : β → α → β} (h : ∀ b a, f b a = g b a)
    (l : List α) (b : β) : l.foldl f b = l.foldl g b := by
  induction l generalizing b with
  | nil => rfl
  | cons x xs ih => rw [List.foldl_cons, List.foldl_cons, h, ih]

lemma any_cells_iff (acc : List Sentence) (d : Finset Cell) :
    ((acc.any fun t => decide (t.cells = d)) = true) ↔ ∃ t ∈ acc, t.cells = d := by
  simp [List.any_eq_true]

lemma any_cells_neg_iff (acc : List Sentence) (d : Finset Cell) :
    ¬ ((acc.any fun t => decide (t.cells = d)) = true) ↔ ∀ t ∈ acc, t.cells ≠ d := by
  rw [any_cells_iff]
  constructor
  · intro h t ht he
    exact h ⟨t, ht, he⟩
  · rintro h ⟨t, ht, he⟩
    exact h t ht he

open AIState in
/-- Claim C4: during `blanket_set_subtraction`, for every pair of distinct
sentences present when resolution starts (the code fixes the pair ranges at
entry), with `A.cells ⊆ B.cells`, the sentence
`(B.cells minus A.cells, B.count - A.count)` is appended exactly when no
sentence with that cell set is present in the current list, and both subset
directions are checked for every pair: the code's `elif` formulation is
extensionally equal to the symmetric specification `subsetResolutionSpec`. -/
theorem blanket_matches_spec (K : List Sentence) :
    blanketList K = subsetResolutionSpec K := by
  unfold blanketList subsetResolutionSpec
  refine foldl_fun_congr ?_ (orderedPairs K) K
  intro acc p
  dsimp only
  by_cases h1 : p.1.cells ⊆ p.2.cells
  · by_cases h2 : p.2.cells ⊆ p.1.cells
    · -- both directions: the two cell sets are equal, both differences empty
      have hcells : p.1.cells = p.2.cells := Finset.Subset.antisymm h1 h2
      have hd1 : p.2.cells \ p.1.cells = ∅ := by rw [hcells, Finset.sdiff_self]
      have hd2 : p.1.cells \ p.2.cells = ∅ := by rw [hcells, Finset.sdiff_self]
      rw [if_pos h1]
      by_cases hany : (acc.any fun t => decide (t.cells = p.2.cells \ p.1.cells)) = true
      · rw [if_pos hany]
        obtain ⟨t, htm, hte⟩ := (any_cells_iff acc _).mp hany
        rw [if_neg (show ¬ (p.1.cells ⊆ p.2.cells ∧
              ∀ u ∈ acc, u.cells ≠ p.2.cells \ p.1.cells) from fun hc => hc.2 t htm hte)]
        rw [if_neg (show ¬ (p.2.cells ⊆ p.1.cells ∧
              ∀ u ∈ acc, u.cells ≠ p.1.cells \ p.2.cells) from
            fun hc => hc.2 t htm (by rw [hte, hd1, hd2]))]
      · rw [if_neg hany]
        have hall := (any_cells_neg_iff acc _).mp hany
        rw [if_pos (show p.1.cells ⊆ p.2.cells ∧
              ∀ u ∈ acc, u.cells ≠ p.2.cells \ p.1.cells from ⟨h1, hall⟩)]
        rw [if_neg (show ¬ (p.2.cells ⊆ p.1.cells ∧
              ∀ u ∈ acc ++ [⟨p.2.cells \ p.1.cells, p.2.count - p.1.count⟩],
                u.cells ≠ p.1.cells \ p.2.cells) from by
          rintro ⟨-, hall2⟩
          exact hall2 ⟨p.2.cells \ p.1.cells, p.2.count - p.1.count⟩
            (List.mem_append_right _ (List.mem_singleton_self _)) (by rw [hd1, hd2]))]
    · -- only the first direction holds
      rw [if_pos h1]
      by_cases hany : (acc.any fun t => decide (t.cells = p.2.cells \ p.1.cells)) = true
      · rw [if_pos hany]
        obtain ⟨t, htm, hte⟩ := (any_cells_iff acc _).mp hany
        rw [if_neg (show ¬ (p.1.cells ⊆ p.2.cells ∧
              ∀ u ∈ acc, u.cells ≠ p.2.cells \ p.1.cells) from fun hc => hc.2 t htm hte)]
        rw [if_neg (show ¬ (p.2.cells ⊆ p.1.cells ∧
              ∀ u ∈ acc, u.cells ≠ p.1.cells \ p.2.cells) from fun hc => h2 hc.1)]
      · rw [if_neg hany]
        have hall := (any_cells_neg_iff acc _).mp hany
        rw [if_pos (show p.1.cells ⊆ p.2.cells ∧
              ∀ u ∈ acc, u.cells ≠ p.2.cells \ p.1.cells from ⟨h1, hall⟩)]
        rw [if_neg (show ¬ (p.2.cells ⊆ p.1.cells ∧
              ∀ u ∈ acc ++ [⟨p.2.cells \ p.1.cells, p.2.count - p.1.count⟩],
                u.cells ≠ p.1.cells \ p.2.cells) from fun hc => h2 hc.1)]
  · by_cases h2 : p.2.cells ⊆ p.1.cells
    · -- only the second direction holds
      rw [if_neg h1, if_pos h2]
      rw [if_neg (show ¬ (p.1.cells ⊆ p.2.cells ∧
            ∀ u ∈ acc, u.cells ≠ p.2.cells \ p.1.cells) from fun hc => h1 hc.1)]
      by_cases hany : (acc.any fun t => decide (t.cells = p.1.cells \ p.2.cells)) = true
      · rw [if_pos hany]
        obtain ⟨t, htm, hte⟩ := (any_cells_iff acc _).mp hany
        rw [if_neg (show ¬ (p.2.cells ⊆ p.1.cells ∧
              ∀ u ∈ acc, u.cells ≠ p.1.cells \ p.2.cells) from fun hc => hc.2 t htm hte)]
      · rw [if_neg hany]
        have hall := (any_cells_neg_iff acc _).mp hany
        rw [if_pos (show p.2.cells ⊆ p.1.cells ∧
              ∀ u ∈ acc, u.cells ≠ p.1.cells \ p.2.cells from ⟨h2, hall⟩)]
    · -- unrelated cell sets: both sides leave the list unchanged
      rw [if_neg h1, if_neg h2]
      rw [if_neg (show ¬ (p.1.cells ⊆ p.2.cells ∧
            ∀ u ∈ acc, u.cells ≠ p.2.cells \ p.1.cells) from fun hc => h1 hc.1)]
      rw [if_neg (show ¬ (p.2.cells ⊆ p.1.cells ∧
            ∀ u ∈ acc, u.cells ≠ p.1.cells \ p.2.cells) from fun hc => h2 hc.1)]

namespace AIState

lemma removeFirst_length_le : ∀ (l : List Sentence) (a : Sentence),
    (removeFirst l a).length ≤ l.length
  | [], _ => Nat.le_refl _
  | x :: xs, a => by
    rw [removeFirst]
    split_ifs
    · exact Nat.le_succ _
    · simpa using Nat.succ_le_succ (removeFirst_length_le xs a)

lemma removeFirst_length_of_mem : ∀ (l : List Sentence) (a : Sentence), a ∈ l →
    (removeFirst l a).length + 1 = l.length
  | [], a, h => absurd h (List.not_mem_nil a)
  | x :: xs, a, h => by
    rw [removeFirst]
    split_ifs with hx
    · rfl
    · have ha : a ∈ xs := by
        rcases List.mem_cons.mp h with h | h
        · exact absurd h.symm hx
        · exact h
      simpa using congrArg Nat.succ (removeFirst_length_of_mem xs a ha)

lemma mem_removeFirst : ∀ (l : List Sentence) (a t : Sentence),
    t ∈ removeFirst l a → t ∈ l
  | [], _, _, h => absurd h (List.not_mem_nil _)
  | x :: xs, a, t, h => by
    rw [removeFirst] at h
    split_ifs at h with hx
    · exact List.mem_cons_of_mem _ h
    · rcases List.mem_cons.mp h with h | h
      · exact h ▸ List.mem_cons_self _ _
      · exact List.mem_cons_of_mem _ (mem_removeFirst xs a t h)

lemma getD_mem_of_lt : ∀ (l : List Sentence) (i : ℕ), i < l.length →
    l.getD i ⟨∅, 0⟩ ∈ l
  | [], i, h => absurd h (by simp)
  | x :: xs, 0, _ => by simp [List.getD]
  | x :: xs, i + 1, h => by
    rw [List.getD_cons_succ]
    exact List.mem_cons_of_mem _ (getD_mem_of_lt xs i (by simpa using h))

lemma getD_eq_getElem_of_lt : ∀ (l : List Sentence) (i : ℕ) (h : i < l.length),
    l.getD i ⟨∅, 0⟩ = l[i]
  | [], i, h => absurd h (by simp)
  | x :: xs, 0, _ => by simp [List.getD]
  | x :: xs, i + 1, h => by
    rw [List.getD_cons_succ, List.getElem_cons_succ]
    exact getD_eq_getElem_of_lt xs i (by simpa using h)

lemma markMinesList_knowledge_length (l : List Cell) (s : AIState) :
    (markMinesList s l).knowledge.length = s.knowledge.length := by
  induction l generalizing s with
  | nil => rfl
  | cons c cl ih =>
    rw [markMinesList_cons, ih]
    simp [mark_mine]

lemma markSafesList_knowledge_length (l : List Cell) (s : AIState) :
    (markSafesList s l).knowledge.length = s.knowledge.length := by
  induction l generalizing s with
  | nil => rfl
  | cons c cl ih =>
    rw [markSafesList_cons, ih]
    simp [mark_safe]

lemma harvestRemove_length (s : AIState) (idx : ℕ) (h : idx < s.knowledge.length) :
    (harvestRemove s idx).knowledge.length + 1 = s.knowledge.length :=
  removeFirst_length_of_mem _ _ (getD_mem_of_lt _ _ h)

lemma harvestRemove_length_le (s : AIState) (idx : ℕ) :
    (harvestRemove s idx).knowledge.length ≤ s.knowledge.length :=
  removeFirst_length_le _ _

lemma harvestFuel_length_le (fuel : ℕ) :
    ∀ (s : AIState) (idx : ℕ),
      (harvestFuel fuel s idx).knowledge.length ≤ s.knowledge.length := by
  induction fuel with
  | zero => intro s idx; exact Nat.le_refl _
  | succ fuel ih =>
    intro s idx
    rw [harvestFuel]
    split_ifs
    · refine Nat.le_trans (ih _ _) (Nat.le_trans (harvestRemove_length_le _ _) ?_)
      rw [markMinesList_knowledge_length]
    · refine Nat.le_trans (ih _ _) (Nat.le_trans (harvestRemove_length_le _ _) ?_)
      rw [markSafesList_knowledge_length]
    · exact ih _ _
    · exact Nat.le_refl _

lemma harvestFuel_fix (fuel : ℕ) :
    ∀ (s : AIState) (idx : ℕ),
      s.knowledge.length ≤ fuel + idx →
      (harvestFuel fuel s idx).knowledge.length = s.knowledge.length →
      harvestFuel fuel s idx = s ∧
        ∀ i, idx ≤ i → i < s.knowledge.length →
          (s.knowledge.getD i ⟨∅, 0⟩).count ≠ ((s.knowledge.getD i ⟨∅, 0⟩).cells.card : ℤ) ∧
            (s.knowledge.getD i ⟨∅, 0⟩).count ≠ 0 := by
  induction fuel with
  | zero =>
    intro s idx hfuel _
    exact ⟨rfl, fun i hi hil => absurd hil (by omega)⟩
  | succ fuel ih =>
    intro s idx hfuel hlen
    rw [harvestFuel] at hlen ⊢
    by_cases hidx : idx < s.knowledge.length
    · rw [if_pos hidx] at hlen ⊢
      by_cases hmine : (s.knowledge.getD idx ⟨∅, 0⟩).count =
          (((s.knowledge.getD idx ⟨∅, 0⟩).cells.card : ℕ) : ℤ)
      · rw [if_pos hmine] at hlen ⊢
        exfalso
        have hle := harvestFuel_length_le fuel
          (harvestRemove (markMinesList s (cellList (s.knowledge.getD idx ⟨∅, 0⟩).cells)) idx)
          (idx + 1)
        have hrem : (harvestRemove
            (markMinesList s (cellList (s.knowledge.getD idx ⟨∅, 0⟩).cells)) idx).knowledge.length + 1 =
            s.knowledge.length := by
          rw [harvestRemove_length _ _
            (by rw [markMinesList_knowledge_length]; exact hidx),
            markMinesList_knowledge_length]
        omega
      · rw [if_neg hmine] at hlen ⊢
        by_cases hsafe : (s.knowledge.getD idx ⟨∅, 0⟩).count = 0
        · rw [if_pos hsafe] at hlen ⊢
          exfalso
          have hle := harvestFuel_length_le fuel
            (harvestRemove (markSafesList s (cellList (s.knowledge.getD idx ⟨∅, 0⟩).cells)) idx)
            (idx + 1)
          have hrem : (harvestRemove
              (markSafesList s (cellList (s.knowledge.getD idx ⟨∅, 0⟩).cells)) idx).knowledge.length + 1 =
              s.knowledge.length := by
            rw [harvestRemove_length _ _
              (by rw [markSafesList_knowledge_length]; exact hidx),
              markSafesList_knowledge_length]
          omega
        · rw [if_neg hsafe] at hlen ⊢
          obtain ⟨heq, hrest⟩ := ih s (idx + 1) (by omega) hlen
          refine ⟨heq, fun i hi hil => ?_⟩
          rcases Nat.eq_or_lt_of_le hi with heqi | hlt
          · rw [← heqi]
            exact ⟨hmine, hsafe⟩
          · exact hrest i hlt hil
    · rw [if_neg hidx] at hlen ⊢
      exact ⟨rfl, fun i hi hil => absurd hil (by omega)⟩

end AIState

namespace AIState

lemma orderedPairs_mem {α : Type} : ∀ (l : List α) (p : α × α),
    p ∈ orderedPairs l → p.1 ∈ l ∧ p.2 ∈ l
  | [], p, h => absurd h (List.not_mem_nil p)
  | x :: xs, p, h => by
    rw [orderedPairs] at h
    rcases List.mem_append.mp h with h | h
    · obtain ⟨y, hy, hxy⟩ := List.mem_map.mp h
      rw [← hxy]
      exact ⟨List.mem_cons_self _ _, List.mem_cons_of_mem _ hy⟩
    · have := orderedPairs_mem xs p h
      exact ⟨List.mem_cons_of_mem _ this.1, List.mem_cons_of_mem _ this.2⟩

lemma buildBadList_aux_nodup (L : List (Sentence × Sentence)) :
    ∀ bad : List Sentence, bad.Nodup →
      (L.foldl (fun bad p =>
        if p.1.cells = p.2.cells ∧ p.1 ∉ bad then bad ++ [p.1] else bad) bad).Nodup := by
  induction L with
  | nil => intro bad h; exact h
  | cons q L ih =>
    intro bad h
    rw [List.foldl_cons]
    split_ifs with hq
    · refine ih _ (List.nodup_append.mpr ⟨h, List.nodup_singleton _, ?_⟩)
      intro a ha hb
      rw [List.mem_singleton] at hb
      exact hq.2 (hb ▸ ha)
    · exact ih _ h

lemma buildBadList_aux_mem (L : List (Sentence × Sentence)) :
    ∀ (bad : List Sentence) (t : Sentence),
      t ∈ L.foldl (fun bad p =>
        if p.1.cells = p.2.cells ∧ p.1 ∉ bad then bad ++ [p.1] else bad) bad →
      t ∈ bad ∨ ∃ p ∈ L, t = p.1 := by
  induction L with
  | nil => intro bad t h; exact Or.inl h
  | cons q L ih =>
    intro bad t h
    rw [List.foldl_cons] at h
    split_ifs at h with hq
    · rcases ih _ t h with h | ⟨p, hp, hpt⟩
      · rcases List.mem_append.mp h with h | h
        · exact Or.inl h
        · exact Or.inr ⟨q, List.mem_cons_self _ _, (List.mem_singleton.mp h)⟩
      · exact Or.inr ⟨p, List.mem_cons_of_mem _ hp, hpt⟩
    · rcases ih _ t h with h | ⟨p, hp, hpt⟩
      · exact Or.inl h
      · exact Or.inr ⟨p, List.mem_cons_of_mem _ hp, hpt⟩

lemma buildBadList_nodup (K : List Sentence) : (buildBadList K).Nodup :=
  buildBadList_aux_nodup _ [] List.nodup_nil

lemma buildBadList_subset (K : List Sentence) (t : Sentence)
    (h : t ∈ buildBadList K) : t ∈ K := by
  rcases buildBadList_aux_mem _ [] t h with h | ⟨p, hp, hpt⟩
  · exact absurd h (List.not_mem_nil t)
  · exact hpt ▸ (orderedPairs_mem K p hp).1

lemma length_filter_split (l : List Sentence) (p : Sentence → Bool) :
    (l.filter p).length + (l.filter (fun x => !(p x))).length = l.length := by
  induction l with
  | nil => rfl
  | cons x xs ih =>
    cases hp : p x <;> simp [List.filter_cons, hp, Nat.succ_eq_add_one] <;> omega

lemma dedup_length_le (K : List Sentence) : (dedupSentences K).length ≤ K.length := by
  unfold dedupSentences
  rw [List.length_append]
  have hsplit := length_filter_split K (fun t => decide (t ∉ buildBadList K))
  have hsub : (buildBadList K).length ≤
      (K.filter (fun t => !(decide (t ∉ buildBadList K)))).length := by
    have h1 : (buildBadList K).toFinset.card = (buildBadList K).length :=
      List.toFinset_card_of_nodup (buildBadList_nodup K)
    have h2 : (buildBadList K).toFinset ⊆
        (K.filter (fun t => !(decide (t ∉ buildBadList K)))).toFinset := by
      intro t ht
      rw [List.mem_toFinset] at ht
      rw [List.mem_toFinset, List.mem_filter]
      refine ⟨buildBadList_subset K t ht, ?_⟩
      simp [ht]
    have h3 := Finset.card_le_card h2
    have h4 := List.toFinset_card_le
      (l := K.filter (fun t => !(decide (t ∉ buildBadList K))))
    omega
  omega

lemma mem_dedupSentences (K : List Sentence) (t : Sentence)
    (h : t ∈ dedupSentences K) : t ∈ K := by
  unfold dedupSentences at h
  rcases List.mem_append.mp h with h | h
  · exact (List.mem_filter.mp h).1
  · exact buildBadList_subset K t h

end AIState

open AIState in
/-- Claim C3 (amended): a degenerate sentence can survive a
`record_observation` call (see `degenerate_survives`), because the cleanup
removal loop mutates the list it iterates and skips the element after each
removal, and the closure runs the cleanup only a bounded number of times.
What does hold: any knowledge base that `knowledge_cleanup` leaves exactly
unchanged contains no sentence with `count == 0` and no sentence with
`count == |cells|` — one further cleanup pass, whenever it changes nothing,
certifies that every live sentence is non-degenerate. -/
theorem cleanup_fixpoint_no_degenerate (s : AIState)
    (hfix : knowledge_cleanup s = s) :
    ∀ t ∈ s.knowledge, t.count ≠ (t.cells.card : ℤ) ∧ t.count ≠ 0 := by
  have hunfold : knowledge_cleanup s =
      harvestFuel (dedupSentences s.knowledge).length
        { s with knowledge := dedupSentences s.knowledge } 0 := rfl
  have hlenfix : (knowledge_cleanup s).knowledge.length = s.knowledge.length := by
    rw [hfix]
  have hle1 : (knowledge_cleanup s).knowledge.length ≤ (dedupSentences s.knowledge).length := by
    rw [hunfold]
    exact harvestFuel_length_le _ _ _
  have hle2 : (dedupSentences s.knowledge).length ≤ s.knowledge.length :=
    dedup_length_le _
  have hleneq : (harvestFuel (dedupSentences s.knowledge).length
      { s with knowledge := dedupSentences s.knowledge } 0).knowledge.length =
      ({ s with knowledge := dedupSentences s.knowledge } : AIState).knowledge.length := by
    rw [← hunfold]
    simp only
    omega
  obtain ⟨hfix1, hnd⟩ := harvestFuel_fix (dedupSentences s.knowledge).length
    { s with knowledge := dedupSentences s.knowledge } 0 (by simp) hleneq
  have hs1 : ({ s with knowledge := dedupSentences s.knowledge } : AIState) = s := by
    conv_rhs => rw [← hfix]
    rw [hunfold, hfix1]
  have hK : dedupSentences s.knowledge = s.knowledge := congrArg knowledge hs1
  intro t ht
  obtain ⟨i, hi, hti⟩ := List.mem_iff_getElem.mp ht
  have hgd : s.knowledge.getD i ⟨∅, 0⟩ = t := by
    rw [getD_eq_getElem_of_lt s.knowledge i hi, hti]
  have := hnd i (Nat.zero_le i) (by simpa [hK] using hi)
  rw [show ({ s with knowledge := dedupSentences s.knowledge } : AIState).knowledge =
      dedupSentences s.knowledge from rfl, hK, hgd] at this
  exact ⟨this.1, this.2⟩

open AIState in
/-- Witness for `cleanup_fixpoint_no_degenerate`: a one-sentence knowledge
base fixed by `knowledge_cleanup`. -/
theorem cleanup_fixpoint_no_degenerate_witness :
    knowledge_cleanup fixpointKB = fixpointKB ∧
      ∀ t ∈ fixpointKB.knowledge, t.count ≠ (t.cells.card : ℤ) ∧ t.count ≠ 0 :=
  ⟨by decide, cleanup_fixpoint_no_degenerate fixpointKB (by decide)⟩

namespace AIState

lemma sentence_mark_mine_mem (t : Sentence) (c x : Cell)
    (h : x ∈ (t.mark_mine c).cells) : x ∈ t.cells ∧ x ≠ c := by
  unfold Sentence.mark_mine at h
  split_ifs at h with hc
  · exact ⟨Finset.mem_of_mem_erase h, Finset.ne_of_mem_erase h⟩
  · exact ⟨h, fun he => hc (he ▸ h)⟩

lemma sentence_mark_safe_mem (t : Sentence) (c x : Cell)
    (h : x ∈ (t.mark_safe c).cells) : x ∈ t.cells ∧ x ≠ c := by
  unfold Sentence.mark_safe at h
  split_ifs at h with hc
  · exact ⟨Finset.mem_of_mem_erase h, Finset.ne_of_mem_erase h⟩
  · exact ⟨h, fun he => hc (he ▸ h)⟩

lemma mem_cellList (F : Finset Cell) (x : Cell) : x ∈ cellList F ↔ x ∈ F := by
  rcases F with ⟨m, hm⟩
  induction m using Quotient.inductionOn with
  | h l =>
    show x ∈ List.insertionSort cellLE l ↔ _
    rw [(List.perm_insertionSort cellLE l).mem_iff]
    exact Iff.rfl

lemma Inv_mark_mine (s : AIState) (c : Cell) (hInv : Inv s) (hc : c ∉ s.safes) :
    Inv (s.mark_mine c) := by
  obtain ⟨hsent, hdisj⟩ := hInv
  constructor
  · intro t' ht' x hx
    obtain ⟨t, ht, rfl⟩ := List.mem_map.mp ht'
    obtain ⟨hxt, hxc⟩ := sentence_mark_mine_mem t c x hx
    obtain ⟨hxm, hxs⟩ := hsent t ht x hxt
    exact ⟨by simp [mark_mine, Finset.mem_insert, hxc, hxm], hxs⟩
  · show insert c s.mines ∩ s.safes = ∅
    rw [Finset.insert_inter_of_not_mem hc]
    exact hdisj

lemma Inv_mark_safe (s : AIState) (c : Cell) (hInv : Inv s) (hc : c ∉ s.mines) :
    Inv (s.mark_safe c) := by
  obtain ⟨hsent, hdisj⟩ := hInv
  constructor
  · intro t' ht' x hx
    obtain ⟨t, ht, rfl⟩ := List.mem_map.mp ht'
    obtain ⟨hxt, hxc⟩ := sentence_mark_safe_mem t c x hx
    obtain ⟨hxm, hxs⟩ := hsent t ht x hxt
    exact ⟨hxm, by simp [mark_safe, Finset.mem_insert, hxc, hxs]⟩
  · show s.mines ∩ insert c s.safes = ∅
    rw [Finset.inter_comm, Finset.insert_inter_of_not_mem hc, Finset.inter_comm]
    exact hdisj

lemma Inv_markMinesList (l : List Cell) : ∀ s : AIState, Inv s →
    (∀ x ∈ l, x ∉ s.safes) → Inv (markMinesList s l) := by
  induction l with
  | nil => intro s h _; exact h
  | cons c cl ih =>
    intro s hInv hl
    rw [markMinesList_cons]
    refine ih _ (Inv_mark_mine s c hInv (hl c (List.mem_cons_self _ _))) ?_
    intro x hx
    show x ∉ (s.mark_mine c).safes
    exact hl x (List.mem_cons_of_mem _ hx)

lemma Inv_markSafesList (l : List Cell) : ∀ s : AIState, Inv s →
    (∀ x ∈ l, x ∉ s.mines) → Inv (markSafesList s l) := by
  induction l with
  | nil => intro s h _; exact h
  | cons c cl ih =>
    intro s hInv hl
    rw [markSafesList_cons]
    refine ih _ (Inv_mark_safe s c hInv (hl c (List.mem_cons_self _ _))) ?_
    intro x hx
    show x ∉ (s.mark_safe c).mines
    exact hl x (List.mem_cons_of_mem _ hx)

lemma find_uncertain_Inv (s : AIState) (cell : Cell) (count : ℤ) (hInv : Inv s) :
    Inv (find_uncertain_neighbours s cell count).1 ∧
      ∀ t ∈ (find_uncertain_neighbours s cell count).2,
        SentOk (find_uncertain_neighbours s cell count).1.mines
          (find_uncertain_neighbours s cell count).1.safes t := by
  simp only [find_uncertain_neighbours]
  split_ifs
  · refine ⟨Inv_markSafesList _ s hInv ?_, ?_⟩
    · intro x hx
      rw [mem_cellList, Finset.mem_filter] at hx
      exact hx.2.1
    · intro t ht
      exact absurd ht (by simp)
  · refine ⟨Inv_markMinesList _ s hInv ?_, ?_⟩
    · intro x hx
      rw [mem_cellList, Finset.mem_filter] at hx
      exact hx.2.2
    · intro t ht
      exact absurd ht (by simp)
  · refine ⟨hInv, ?_⟩
    intro t ht
    rw [Option.mem_def] at ht
    have ht2 := Option.some.inj (show some _ = some t from ht)
    rw [← ht2]
    intro x hx
    rw [Finset.mem_filter] at hx
    exact ⟨hx.2.1, hx.2.2⟩

lemma Inv_appendSentence (s : AIState) (o : Option Sentence) (hInv : Inv s)
    (ho : ∀ t ∈ o, SentOk s.mines s.safes t) : Inv (appendSentence s o) := by
  cases o with
  | none => exact hInv
  | some t =>
    obtain ⟨hsent, hdisj⟩ := hInv
    refine ⟨?_, hdisj⟩
    intro u hu
    rcases List.mem_append.mp hu with hu | hu
    · exact hsent u hu
    · rw [List.mem_singleton.mp hu]
      exact ho t rfl

lemma Inv_harvestRemove (s : AIState) (idx : ℕ) (hInv : Inv s) :
    Inv (harvestRemove s idx) := by
  obtain ⟨hsent, hdisj⟩ := hInv
  refine ⟨?_, hdisj⟩
  intro t ht
  exact hsent t (mem_removeFirst _ _ _ ht)

lemma Inv_dedup (s : AIState) (hInv : Inv s) :
    Inv { s with knowledge := dedupSentences s.knowledge } := by
  obtain ⟨hsent, hdisj⟩ := hInv
  refine ⟨?_, hdisj⟩
  intro t ht
  exact hsent t (mem_dedupSentences _ t ht)

lemma Inv_harvestFuel (fuel : ℕ) : ∀ (s : AIState) (idx : ℕ), Inv s →
    Inv (harvestFuel fuel s idx) := by
  induction fuel with
  | zero => intro s idx h; exact h
  | succ fuel ih =>
    intro s idx hInv
    rw [harvestFuel]
    split_ifs with hidx hmine hsafe
    · refine ih _ _ (Inv_harvestRemove _ _ (Inv_markMinesList _ s hInv ?_))
      intro x hx
      rw [mem_cellList] at hx
      exact (hInv.1 _ (getD_mem_of_lt _ _ hidx) x hx).2
    · refine ih _ _ (Inv_harvestRemove _ _ (Inv_markSafesList _ s hInv ?_))
      intro x hx
      rw [mem_cellList] at hx
      exact (hInv.1 _ (getD_mem_of_lt _ _ hidx) x hx).1
    · exact ih _ _ hInv
    · exact hInv

lemma Inv_knowledge_cleanup (s : AIState) (hInv : Inv s) :
    Inv (knowledge_cleanup s) := by
  simp only [knowledge_cleanup]
  exact Inv_harvestFuel _ _ _ (Inv_dedup s hInv)

lemma blanketList_aux_ok (M S : Finset Cell) (K : List Sentence)
    (hK : ∀ t ∈ K, SentOk M S t) :
    ∀ (L : List (Sentence × Sentence)) (acc : List Sentence),
      (∀ p ∈ L, p.1 ∈ K ∧ p.2 ∈ K) → (∀ t ∈ acc, SentOk M S t) →
      ∀ t ∈ L.foldl
        (fun acc p =>
          if p.1.cells ⊆ p.2.cells then
            (if acc.any (fun t => decide (t.cells = p.2.cells \ p.1.cells)) then acc
             else acc ++ [⟨p.2.cells \ p.1.cells, p.2.count - p.1.count⟩])
          else if p.2.cells ⊆ p.1.cells then
            (if acc.any (fun t => decide (t.cells = p.1.cells \ p.2.cells)) then acc
             else acc ++ [⟨p.1.cells \ p.2.cells, p.1.count - p.2.count⟩])
          else acc) acc,
        SentOk M S t := by
  intro L
  induction L with
  | nil => intro acc _ hacc t ht; exact hacc t ht
  | cons q L ih =>
    intro acc hL hacc t ht
    rw [List.foldl_cons] at ht
    have hq := hL q (List.mem_cons_self _ _)
    have hL' : ∀ p ∈ L, p.1 ∈ K ∧ p.2 ∈ K := fun p hp => hL p (List.mem_cons_of_mem _ hp)
    refine ih _ hL' ?_ t ht
    intro u hu
    split_ifs at hu
    all_goals
      first
        | exact hacc u hu
        | (rcases List.mem_append.mp hu with hu | hu
           · exact hacc u hu
           · rw [List.mem_singleton.mp hu]
             intro x hx
             first
               | exact hK q.2 hq.2 x (Finset.mem_sdiff.mp hx).1
               | exact hK q.1 hq.1 x (Finset.mem_sdiff.mp hx).1)

lemma Inv_blanket (s : AIState) (hInv : Inv s) : Inv (blanket_set_subtraction s) := by
  obtain ⟨hsent, hdisj⟩ := hInv
  refine ⟨?_, hdisj⟩
  intro t ht
  exact blanketList_aux_ok s.mines s.safes s.knowledge hsent (orderedPairs s.knowledge)
    s.knowledge (fun p hp => orderedPairs_mem _ p hp) hsent t ht

lemma Inv_closureStep (s : AIState) (hInv : Inv s) : Inv (closureStep s) :=
  Inv_knowledge_cleanup _ (Inv_blanket _ (Inv_knowledge_cleanup _ hInv))

lemma Inv_add_knowledge (s : AIState) (cell : Cell) (count : ℤ)
    (hInv : Inv s) (hc : cell ∉ s.mines) : Inv (add_knowledge s cell count) := by
  rw [add_knowledge_def]
  have h1 : Inv ({ s with moves_made := insert cell s.moves_made } : AIState) :=
    ⟨hInv.1, hInv.2⟩
  have h2 := Inv_mark_safe { s with moves_made := insert cell s.moves_made } cell h1 hc
  have h3 := find_uncertain_Inv
    (mark_safe { s with moves_made := insert cell s.moves_made } cell) cell count h2
  exact Inv_closureStep _ (Inv_appendSentence _ _ h3.1 h3.2)

lemma Inv_initAI (h w : ℕ) : Inv (initAI h w) := by
  constructor
  · intro t ht
    exact absurd ht (List.not_mem_nil t)
  · simp [initAI]

lemma runObs_cons (s : AIState) (o : Cell × ℤ) (obs : List (Cell × ℤ)) :
    runObs s (o :: obs) = runObs (add_knowledge s o.1 o.2) obs := rfl

lemma runObs_append (s : AIState) (obs₁ obs₂ : List (Cell × ℤ)) :
    runObs s (obs₁ ++ obs₂) = runObs (runObs s obs₁) obs₂ :=
  List.foldl_append _ _ _ _

lemma runObs_mines_mono (obs : List (Cell × ℤ)) : ∀ s : AIState,
    s.mines ⊆ (runObs s obs).mines := by
  induction obs with
  | nil => intro s; exact subset_rfl
  | cons o obs ih =>
    intro s
    rw [runObs_cons]
    exact Finset.Subset.trans (add_knowledge_mines_mono s o.1 o.2) (ih _)

lemma runObs_safes_mono (obs : List (Cell × ℤ)) : ∀ s : AIState,
    s.safes ⊆ (runObs s obs).safes := by
  induction obs with
  | nil => intro s; exact subset_rfl
  | cons o obs ih =>
    intro s
    rw [runObs_cons]
    exact Finset.Subset.trans (add_knowledge_safes_mono s o.1 o.2) (ih _)

lemma runObs_Inv (obs : List (Cell × ℤ)) : ∀ s : AIState, Inv s →
    ValidTrace s obs → Inv (runObs s obs) := by
  induction obs with
  | nil => intro s h _; exact h
  | cons o obs ih =>
    intro s hInv hv
    rw [runObs_cons]
    exact ih _ (Inv_add_knowledge s o.1 o.2 hInv hv.1) hv.2

end AIState

open AIState in
/-- Claim C5 (amended): across any sequence of `record_observation` calls
from a fresh agent, `mines` and `safes` only grow (every element present
after a prefix of the calls is still present after the rest); and provided
no call observes a cell already known to be a mine — true of any caller
driven by a real board, which never reveals a count for a mine — the two
sets are also disjoint at every point.  Unrestricted sequences can break
disjointness (see `mines_safes_overlap`). -/
theorem record_observation_monotone_disjoint (h w : ℕ) (obs₁ obs₂ : List (Cell × ℤ)) :
    (runObs (initAI h w) obs₁).mines ⊆ (runObs (initAI h w) (obs₁ ++ obs₂)).mines ∧
      (runObs (initAI h w) obs₁).safes ⊆ (runObs (initAI h w) (obs₁ ++ obs₂)).safes ∧
      (ValidTrace (initAI h w) (obs₁ ++ obs₂) →
        (runObs (initAI h w) (obs₁ ++ obs₂)).mines ∩
          (runObs (initAI h w) (obs₁ ++ obs₂)).safes = ∅) := by
  refine ⟨?_, ?_, ?_⟩
  · rw [runObs_append]
    exact runObs_mines_mono obs₂ _
  · rw [runObs_append]
    exact runObs_safes_mono obs₂ _
  · intro hv
    exact (runObs_Inv _ _ (Inv_initAI h w) hv).2

open AIState in
/-- Witness for `record_observation_monotone_disjoint`: the valid one-call
trace `[( (0,0), 1 )]` on a 1×2 board. -/
theorem record_observation_monotone_disjoint_witness :
    ValidTrace (initAI 1 2) [(((0 : ℕ), (0 : ℕ)), (1 : ℤ))] ∧
      (runObs (initAI 1 2) [(((0 : ℕ), (0 : ℕ)), (1 : ℤ))]).mines ∩
        (runObs (initAI 1 2) [(((0 : ℕ), (0 : ℕ)), (1 : ℤ))]).safes = ∅ :=
  ⟨by decide,
   (record_observation_monotone_disjoint 1 2 [] [(((0 : ℕ), (0 : ℕ)), (1 : ℤ))]).2.2
     (by decide)⟩
